import Mathlib

/-
Verification of the Differential Evolution (DE) engine of this repository.

The repository is a set of teaching notebooks.  The DE notebook declares a
`DEResult` dataclass and a `differential_evolution` function whose body raises
`NotImplementedError("Not implemented")` as its first executable statement;
the initialization, mutation, crossover and selection steps exist in the
source only as markdown text and TODO comments.  We embed the stub as it is,
and model the missing engine from the specification (operations `initialize`,
`mutate`, `crossover`, `select`, `run` of §4.1, the random-source interface of
§6, the precondition/error taxonomy of §7).

Vectors are lists of rationals; a Python `raise` is an `Except.error` value;
the random source is an explicit state-passing structure whose distributional
contract (uniformity) is recorded as an interface assumption `RandomSource.WF`.
-/

set_option linter.unusedVariables false

namespace DE

/-- Python-level exception type used by the notebook: the stub raises
`NotImplementedError` with a message. -/
inductive PyError where
  | notImplementedError (msg : String) : PyError
  deriving DecidableEq

/-- Embedded from the source `DEResult` dataclass: best vector, best objective
value, and the history of per-generation population snapshots. -/
structure DEResult where
  best_vector : List ℚ
  best_value : ℚ
  history : List (List (List ℚ))
  deriving DecidableEq

/-- Embedded from the source `differential_evolution`: the first executable
statement of the body (right after the docstring) is
`raise NotImplementedError("Not implemented")`.  The initialization code and
the generation loop written below that statement in the source are dead code,
so the embedding of every call is exactly that raised error, independent of
all arguments. -/
def differential_evolution (func : List ℚ → ℚ) (bounds : List (ℚ × ℚ))
    (pop_size : Nat) (F : ℚ) (CR : ℚ) (max_gen : Nat) : Except PyError DEResult :=
  Except.error (PyError.notImplementedError "Not implemented")

/-- Modelled from the spec: the random-source interface of §6 — it
"must support uniform sampling of reals in `[0,1)` and uniform sampling of
distinct integer indices in `[0, pop_size)`".  The source code of the engine
is missing from the repository (the stub raises), so randomness is an abstract
state-passing structure; `distinctIndices n i s` draws the three mutation
indices, distinct from each other and from the target index `i`. -/
structure RandomSource (σ : Type) where
  uniform01 : σ → ℚ × σ
  randIndex : Nat → σ → Nat × σ
  distinctIndices : Nat → Nat → σ → (Nat × Nat × Nat) × σ

/-- Three indices drawn for mutation are in range, pairwise distinct, and all
distinct from the target index. -/
def DistinctFrom (n i : Nat) (abc : Nat × Nat × Nat) : Prop :=
  abc.1 < n ∧ abc.2.1 < n ∧ abc.2.2 < n ∧
  abc.1 ≠ abc.2.1 ∧ abc.1 ≠ abc.2.2 ∧ abc.2.1 ≠ abc.2.2 ∧
  abc.1 ≠ i ∧ abc.2.1 ≠ i ∧ abc.2.2 ≠ i

/-- Contract of a well-formed random source: `uniform01` lands in `[0,1)`,
`randIndex n` lands in `[0,n)`, and `distinctIndices n i` returns three
admissible mutation indices whenever `4 ≤ n` and `i < n`. -/
structure RandomSource.WF {σ : Type} (rs : RandomSource σ) : Prop where
  uniform01_nonneg : ∀ s, 0 ≤ (rs.uniform01 s).1
  uniform01_lt_one : ∀ s, (rs.uniform01 s).1 < 1
  randIndex_lt : ∀ n s, 0 < n → (rs.randIndex n s).1 < n
  distinctIndices_spec : ∀ n i s, 4 ≤ n → i < n →
    DistinctFrom n i (rs.distinctIndices n i s).1

variable {σ : Type} {ε : Type}

/-- Modelled from the spec: one uniformly sampled individual — "sample each
coordinate of each Individual independently and uniformly from
`[lower_d, upper_d]`" (§4.1 initialize), realised from the `[0,1)` primitive
as `lower + r * (upper - lower)`. -/
def sampleVec (rs : RandomSource σ) : List (ℚ × ℚ) → σ → List ℚ × σ
  | [], s => ([], s)
  | b :: bs, s =>
    let p := rs.uniform01 s
    let rest := sampleVec rs bs p.2
    ((b.1 + p.1 * (b.2 - b.1)) :: rest.1, rest.2)

/-- Modelled from the spec: the population initialisation of §4.1 — produce
the generation-0 population of `pop_size` uniformly sampled individuals. -/
def initPopulation (rs : RandomSource σ) (bounds : List (ℚ × ℚ)) :
    Nat → σ → List (List ℚ) × σ
  | 0, s => ([], s)
  | n + 1, s =>
    let x := sampleVec rs bounds s
    let xs := initPopulation rs bounds n x.2
    (x.1 :: xs.1, xs.2)

/-- Modelled from the spec: coordinate-wise projection of a vector back into
the search-space bounds, by the clamp-to-nearest-bound policy of §4.1 mutate. -/
def clip (bounds : List (ℚ × ℚ)) (v : List ℚ) : List ℚ :=
  List.zipWith (fun b x => max b.1 (min x b.2)) bounds v

/-- Modelled from the spec: the raw mutant `v = a + F * (b - c)`,
coordinate-wise (§4.1 mutate), before boundary handling. -/
def mutantVec (F : ℚ) (xa xb xc : List ℚ) : List ℚ :=
  List.zipWith (fun pa d => pa + F * d) xa (List.zipWith (fun pb pc => pb - pc) xb xc)

/-- Modelled from the spec: `mutate` of §4.1 — draw three distinct indices
`a, b, c`, none equal to the target index, build `population[a] + F *
(population[b] - population[c])` and clip it back into the bounds. -/
def mutate (rs : RandomSource σ) (bounds : List (ℚ × ℚ)) (F : ℚ)
    (pop : List (List ℚ)) (i : Nat) (s : σ) : List ℚ × σ :=
  let q := rs.distinctIndices pop.length i s
  (clip bounds
    (mutantVec F (pop.getD q.1.1 []) (pop.getD q.1.2.1 []) (pop.getD q.1.2.2 [])),
   q.2)

/-- Modelled from the spec: the per-coordinate uniform draws `r_j` of §4.1
crossover, one for each of the `n` coordinates, in order. -/
def drawList (rs : RandomSource σ) : Nat → σ → List ℚ × σ
  | 0, s => ([], s)
  | n + 1, s =>
    let p := rs.uniform01 s
    let rest := drawList rs n p.2
    (p.1 :: rest.1, rest.2)

/-- Modelled from the spec: the pure part of crossover — coordinate `j` of the
trial is taken from the mutant when `r_j < CR` or `j = j_rand`, otherwise from
the target (§4.1 crossover).  `j` counts the absolute coordinate position. -/
def crossoverCombine (CR : ℚ) (jrand : Nat) :
    Nat → List ℚ → List ℚ → List ℚ → List ℚ
  | _, [], _, _ => []
  | _, _, [], _ => []
  | _, _, _, [] => []
  | j, t :: ts, m :: ms, r :: rls =>
    (if r < CR ∨ j = jrand then m else t) ::
      crossoverCombine CR jrand (j + 1) ts ms rls

/-- Modelled from the spec: `crossover` of §4.1 — draw `j_rand` once per call
uniformly over dimension indices, draw one uniform `r_j` per coordinate, and
blend mutant and target coordinate-wise. -/
def crossover (rs : RandomSource σ) (CR : ℚ) (target mutant : List ℚ) (s : σ) :
    List ℚ × σ :=
  let jr := rs.randIndex target.length s
  let rr := drawList rs target.length jr.2
  (crossoverCombine CR jr.1 0 target mutant rr.1, rr.2)

/-- Modelled from the spec: `select` of §4.1 — the trial replaces the target
iff `trial_fitness < target_fitness`; ties keep the incumbent. -/
def select (target : List ℚ) (targetFit : ℚ) (trial : List ℚ) (trialFit : ℚ) :
    List ℚ × ℚ :=
  if trialFit < targetFit then (trial, trialFit) else (target, targetFit)

/-- Modelled from the spec: evaluate the objective on every individual of a
population, propagating the first objective-function exception (§4.1 run
step 1, §7 objective evaluation failure). -/
def evalPop (func : List ℚ → Except ε ℚ) : List (List ℚ) → Except ε (List ℚ)
  | [] => Except.ok []
  | x :: xs =>
    match func x with
    | Except.error e => Except.error e
    | Except.ok v =>
      match evalPop func xs with
      | Except.error e => Except.error e
      | Except.ok vs => Except.ok (v :: vs)

/-- Modelled from the spec: one generation's pass over the remaining target
slots, in index order (§4.1 run step 2).  `pop` is the full previous
generation (the mutation pool, immutable during the generation); `i` is the
index of the head target; targets and their cached fitness values are consumed
in lockstep.  Each slot runs mutate → crossover → evaluate → select against
the previous generation's target fitness. -/
def evolveSlots (rs : RandomSource σ) (func : List ℚ → Except ε ℚ)
    (bounds : List (ℚ × ℚ)) (F CR : ℚ) (pop : List (List ℚ)) :
    Nat → List (List ℚ) → List ℚ → σ → Except ε (List (List ℚ) × List ℚ × σ)
  | _, [], _, s => Except.ok ([], [], s)
  | _, _, [], s => Except.ok ([], [], s)
  | i, t :: ts, f :: fs, s =>
    let mu := mutate rs bounds F pop i s
    let tr := crossover rs CR t mu.1 mu.2
    match func tr.1 with
    | Except.error e => Except.error e
    | Except.ok trialFit =>
      let w := select t f tr.1 trialFit
      match evolveSlots rs func bounds F CR pop (i + 1) ts fs tr.2 with
      | Except.error e => Except.error e
      | Except.ok rest => Except.ok (w.1 :: rest.1, w.2 :: rest.2.1, rest.2.2)

/-- Modelled from the spec: one full generation — every target index of the
previous generation produces the next generation's slot by
mutate → crossover → select (§4.1 run step 2). -/
def generationStep (rs : RandomSource σ) (func : List ℚ → Except ε ℚ)
    (bounds : List (ℚ × ℚ)) (F CR : ℚ) (pop : List (List ℚ)) (fits : List ℚ)
    (s : σ) : Except ε (List (List ℚ) × List ℚ × σ) :=
  evolveSlots rs func bounds F CR pop 0 pop fits s

/-- Modelled from the spec: fold the global best (vector, value) pair over a
population and its cached fitness values (§4.1 run step 3): a candidate takes
over only when its value is strictly smaller. -/
def bestOf : List (List ℚ) → List ℚ → List ℚ × ℚ → List ℚ × ℚ
  | [], _, acc => acc
  | _, [], acc => acc
  | x :: xs, v :: vs, acc =>
    bestOf xs vs (if v < acc.2 then (x, v) else acc)

/-- Modelled from the spec: the generation loop of §4.1 run steps 2–4 —
`gens` remaining generations; each completed generation's post-selection
population is appended to the history and folded into the global best. -/
def runLoop (rs : RandomSource σ) (func : List ℚ → Except ε ℚ)
    (bounds : List (ℚ × ℚ)) (F CR : ℚ) :
    Nat → List (List ℚ) → List ℚ → List ℚ × ℚ → σ →
    Except ε (List (List (List ℚ)) × (List ℚ × ℚ))
  | 0, _, _, best, _ => Except.ok ([], best)
  | g + 1, pop, fits, best, s =>
    match generationStep rs func bounds F CR pop fits s with
    | Except.error e => Except.error e
    | Except.ok step =>
      let newBest := bestOf step.1 step.2.1 best
      match runLoop rs func bounds F CR g step.1 step.2.1 newBest step.2.2 with
      | Except.error e => Except.error e
      | Except.ok rest => Except.ok (step.1 :: rest.1, rest.2)

/-- Errors of one engine run: a precondition violation is a configuration
error (§7); an objective-function exception is propagated as is. -/
inductive DEError (ε : Type) where
  | configError : DEError ε
  | objective (e : ε) : DEError ε
  deriving DecidableEq

/-- Modelled from the spec: the §4.1/§7 precondition — non-empty search
space, `pop_size ≥ 4`, and each bound pair well-formed with lower ≤ upper
(non-finiteness is not representable over ℚ). -/
def validConfig (bounds : List (ℚ × ℚ)) (pop_size : Nat) : Bool :=
  !bounds.isEmpty && decide (4 ≤ pop_size) &&
    bounds.all (fun b => decide (b.1 ≤ b.2))

/-- Modelled from the spec: `run` of §4.1 — validate the configuration before
anything else, initialize and evaluate generation 0, then iterate `max_gen`
generations, returning the best vector, the best value and the history. -/
def run (rs : RandomSource σ) (func : List ℚ → Except ε ℚ)
    (bounds : List (ℚ × ℚ)) (pop_size : Nat) (F CR : ℚ) (max_gen : Nat)
    (s : σ) : Except (DEError ε) DEResult :=
  if validConfig bounds pop_size then
    let ini := initPopulation rs bounds pop_size s
    match evalPop func ini.1 with
    | Except.error e => Except.error (DEError.objective e)
    | Except.ok fits0 =>
      let best0 := bestOf ini.1 fits0 (ini.1.headD [], fits0.headD 0)
      match runLoop rs func bounds F CR max_gen ini.1 fits0 best0 ini.2 with
      | Except.error e => Except.error (DEError.objective e)
      | Except.ok fin => Except.ok ⟨fin.2.1, fin.2.2, fin.1⟩
  else Except.error DEError.configError

/-- Embedded from the source: the `sphere` benchmark objective,
`float(np.sum(x**2))`, over rational vectors. -/
def sphere (x : List ℚ) : ℚ :=
  (x.map (fun xi => xi * xi)).sum

/-- The sphere benchmark as a total objective for the engine. -/
def sphereObj : List ℚ → Except Unit ℚ :=
  fun x => Except.ok (sphere x)

/-- A concrete deterministic random source, used to evaluate the engine on
closed inputs: `uniform01` always returns `0`, `randIndex` returns `0`, and
the three mutation indices are the three smallest admissible ones. -/
def trivSource : RandomSource Unit where
  uniform01 := fun s => (0, s)
  randIndex := fun _ s => (0, s)
  distinctIndices := fun _ i s =>
    ((if i = 0 then 1 else 0, if i ≤ 1 then 2 else 1, if i ≤ 2 then 3 else 2), s)

theorem trivSource_wf : trivSource.WF := by
  refine ⟨?_, ?_, ?_, ?_⟩
  · intro s; simp [trivSource]
  · intro s; norm_num [trivSource]
  · intro n s h; simpa [trivSource] using h
  · intro n i s h4 hi
    simp only [trivSource, DistinctFrom]
    split_ifs <;> omega

/-- Cached fitness values match one objective evaluation per population slot. -/
def FitsOk (func : List ℚ → Except ε ℚ) (pop : List (List ℚ)) (fits : List ℚ) :
    Prop :=
  List.Forall₂ (fun x v => func x = Except.ok v) pop fits

theorem evalPop_fitsOk {func : List ℚ → Except ε ℚ} :
    ∀ {pop : List (List ℚ)} {fits : List ℚ},
      evalPop func pop = Except.ok fits → FitsOk func pop fits := by
  intro pop
  induction pop with
  | nil =>
    intro fits h
    simp only [evalPop, Except.ok.injEq] at h
    subst h
    exact List.Forall₂.nil
  | cons x xs ih =>
    intro fits h
    unfold evalPop at h
    cases hx : func x with
    | error e => rw [hx] at h; exact absurd h (by simp)
    | ok v =>
      rw [hx] at h
      cases hxs : evalPop func xs with
      | error e => rw [hxs] at h; exact absurd h (by simp)
      | ok vs =>
        rw [hxs] at h
        simp only [Except.ok.injEq] at h
        subst h
        exact List.Forall₂.cons hx (ih hxs)

theorem select_of_lt {target trial : List ℚ} {tf trf : ℚ} (h : trf < tf) :
    select target tf trial trf = (trial, trf) := by
  simp [select, h]

theorem select_of_ge {target trial : List ℚ} {tf trf : ℚ} (h : tf ≤ trf) :
    select target tf trial trf = (target, tf) := by
  simp [select, not_lt.mpr h]

/-- An individual lies coordinate-wise inside the closed search-space bounds. -/
def InBounds (bounds : List (ℚ × ℚ)) (x : List ℚ) : Prop :=
  List.Forall₂ (fun b xi => b.1 ≤ xi ∧ xi ≤ b.2) bounds x

/-- Well-formed search space: every pair satisfies lower ≤ upper. -/
def ValidBounds (bounds : List (ℚ × ℚ)) : Prop :=
  ∀ b ∈ bounds, b.1 ≤ b.2

/-- Every individual of a population is in bounds. -/
def PopInBounds (bounds : List (ℚ × ℚ)) (pop : List (List ℚ)) : Prop :=
  ∀ x ∈ pop, InBounds bounds x

theorem inBounds_length {bounds : List (ℚ × ℚ)} {x : List ℚ}
    (h : InBounds bounds x) : x.length = bounds.length :=
  (List.Forall₂.length_eq h).symm

theorem clip_inBounds {bounds : List (ℚ × ℚ)} (hb : ValidBounds bounds) :
    ∀ {v : List ℚ}, bounds.length ≤ v.length → InBounds bounds (clip bounds v) := by
  induction bounds with
  | nil => intro v hv; exact List.Forall₂.nil
  | cons b bs ih =>
    intro v hv
    cases v with
    | nil => simp at hv
    | cons x xs =>
      have hble : b.1 ≤ b.2 := hb b (List.mem_cons_self b bs)
      refine List.Forall₂.cons ⟨le_max_left _ _, ?_⟩ ?_
      · exact max_le hble (min_le_right x b.2)
      · exact ih (fun c hc => hb c (List.mem_cons_of_mem b hc))
          (Nat.succ_le_succ_iff.mp hv)

theorem mutantVec_length {F : ℚ} {xa xb xc : List ℚ} :
    (mutantVec F xa xb xc).length = min xa.length (min xb.length xc.length) := by
  simp [mutantVec]

theorem getD_inBounds {bounds : List (ℚ × ℚ)} {pop : List (List ℚ)}
    (hpop : PopInBounds bounds pop) {a : Nat} (ha : a < pop.length) :
    InBounds bounds (pop.getD a []) := by
  rw [List.getD_eq_getElem _ _ ha]
  exact hpop _ (List.getElem_mem ha)

theorem mutate_inBounds {rs : RandomSource σ} (hwf : rs.WF)
    {bounds : List (ℚ × ℚ)} {F : ℚ} {pop : List (List ℚ)} {i : Nat} {s : σ}
    (hb : ValidBounds bounds) (hpop : PopInBounds bounds pop)
    (h4 : 4 ≤ pop.length) (hi : i < pop.length) :
    InBounds bounds (mutate rs bounds F pop i s).1 := by
  obtain ⟨ha, hbb, hc, -⟩ := hwf.distinctIndices_spec pop.length i s h4 hi
  apply clip_inBounds hb
  rw [mutantVec_length,
    inBounds_length (getD_inBounds hpop ha),
    inBounds_length (getD_inBounds hpop hbb),
    inBounds_length (getD_inBounds hpop hc)]
  simp

/-- C2: for every objective function, bounds list and hyperparameter setting,
`differential_evolution` raises `NotImplementedError("Not implemented")` as
its first executable statement; no call returns a `DEResult` — the
initialization, generation-loop and history code after the raise is dead. -/
theorem differential_evolution_always_raises (func : List ℚ → ℚ)
    (bounds : List (ℚ × ℚ)) (pop_size : Nat) (F CR : ℚ) (max_gen : Nat) :
    differential_evolution func bounds pop_size F CR max_gen =
      Except.error (PyError.notImplementedError "Not implemented") ∧
    ∀ r : DEResult,
      differential_evolution func bounds pop_size F CR max_gen ≠ Except.ok r := by
  refine ⟨rfl, ?_⟩
  intro r h
  simp [differential_evolution] at h

/-- C1: in every selection step of the engine, the trial vector replaces the
target in the next generation iff the trial's objective value is strictly
less than the target's; on a tie the incumbent target and its cached fitness
are kept. -/
theorem selection_strict {rs : RandomSource σ} {func : List ℚ → Except ε ℚ}
    {bounds : List (ℚ × ℚ)} {F CR : ℚ} {pop : List (List ℚ)} {i : Nat}
    {t : List ℚ} {ts : List (List ℚ)} {f : ℚ} {fs : List ℚ} {s : σ}
    {w : List ℚ} {ws : List (List ℚ)} {wf : ℚ} {wfs : List ℚ} {s₂ : σ}
    (h : evolveSlots rs func bounds F CR pop i (t :: ts) (f :: fs) s =
      Except.ok (w :: ws, wf :: wfs, s₂)) :
    ∃ trial trialFit, func trial = Except.ok trialFit ∧
      (trialFit < f → w = trial ∧ wf = trialFit) ∧
      (f ≤ trialFit → w = t ∧ wf = f) := by
  simp only [evolveSlots] at h
  split at h
  · exact absurd h (by simp)
  · rename_i trialFit hx
    split at h
    · exact absurd h (by simp)
    · rename_i rest hrest
      refine ⟨_, trialFit, hx, ?_, ?_⟩
      · intro hlt
        rw [select_of_lt hlt] at h
        simp only [Except.ok.injEq, Prod.mk.injEq, List.cons.injEq] at h
        exact ⟨h.1.1.symm, h.2.1.1.symm⟩
      · intro hge
        rw [select_of_ge hge] at h
        simp only [Except.ok.injEq, Prod.mk.injEq, List.cons.injEq] at h
        exact ⟨h.1.1.symm, h.2.1.1.symm⟩

theorem selection_strict_witness :
    ∃ trial trialFit, sphereObj trial = Except.ok trialFit ∧
      (trialFit < 25 → [-5] = trial ∧ (25 : ℚ) = trialFit) ∧
      ((25 : ℚ) ≤ trialFit → ([-5] : List ℚ) = [-5] ∧ (25 : ℚ) = 25) := by
  have h : evolveSlots trivSource sphereObj [(-5, 5)] (4/5) (9/10)
      [[-5], [-5], [-5], [-5]] 0 [[-5], [-5], [-5], [-5]] [25, 25, 25, 25] () =
      Except.ok ([[-5], [-5], [-5], [-5]], [25, 25, 25, 25], ()) := by
    norm_num [evolveSlots, mutate, crossover, clip, mutantVec, drawList,
      crossoverCombine, select, sphereObj, sphere, trivSource]
  exact selection_strict h

/-- C4: for every mutation step with target index `i`, the three drawn indices
are pairwise distinct, all distinct from `i` and in range, the mutant is
`population[a] + F * (population[b] - population[c])` coordinate-wise
projected back into the bounds by clipping, and the projected mutant lies in
the search space.  Uniformity of the index draw is the contract of the
supplied random source (§6). -/
theorem mutation_distinct_formula {rs : RandomSource σ} (hwf : rs.WF)
    {bounds : List (ℚ × ℚ)} {F : ℚ} {pop : List (List ℚ)} {i : Nat} {s : σ}
    (hb : ValidBounds bounds) (hpop : PopInBounds bounds pop)
    (h4 : 4 ≤ pop.length) (hi : i < pop.length) :
    DistinctFrom pop.length i (rs.distinctIndices pop.length i s).1 ∧
    (mutate rs bounds F pop i s).1 =
      clip bounds (mutantVec F
        (pop.getD (rs.distinctIndices pop.length i s).1.1 [])
        (pop.getD (rs.distinctIndices pop.length i s).1.2.1 [])
        (pop.getD (rs.distinctIndices pop.length i s).1.2.2 [])) ∧
    InBounds bounds (mutate rs bounds F pop i s).1 :=
  ⟨hwf.distinctIndices_spec _ _ _ h4 hi, rfl, mutate_inBounds hwf hb hpop h4 hi⟩

theorem mutation_distinct_formula_witness :
    DistinctFrom 4 0 (trivSource.distinctIndices 4 0 ()).1 ∧
    (mutate trivSource [(-5, 5)] (4/5) [[-5], [-5], [-5], [-5]] 0 ()).1 =
      clip [(-5, 5)] (mutantVec (4/5)
        ([[-5], [-5], [-5], [-5]].getD (trivSource.distinctIndices 4 0 ()).1.1 [])
        ([[-5], [-5], [-5], [-5]].getD (trivSource.distinctIndices 4 0 ()).1.2.1 [])
        ([[-5], [-5], [-5], [-5]].getD (trivSource.distinctIndices 4 0 ()).1.2.2 [])) ∧
    InBounds [(-5, 5)] (mutate trivSource [(-5, 5)] (4/5) [[-5], [-5], [-5], [-5]] 0 ()).1 := by
  have hpop : PopInBounds [(-5, 5)] [[-5], [-5], [-5], [-5]] := by
    intro x hx
    simp only [List.mem_cons, List.not_mem_nil, or_false] at hx
    rcases hx with h | h | h | h <;> subst h <;>
      exact List.Forall₂.cons (by norm_num) List.Forall₂.nil
  have hb : ValidBounds [(-5, 5)] := by
    intro b hb
    simp only [List.mem_cons, List.not_mem_nil, or_false] at hb
    subst hb; norm_num
  exact mutation_distinct_formula trivSource_wf hb hpop (by norm_num) (by norm_num)

theorem drawList_length {rs : RandomSource σ} :
    ∀ (n : Nat) (s : σ), ((drawList rs n s).1).length = n := by
  intro n
  induction n with
  | zero => intro s; rfl
  | succ n ih => intro s; simp [drawList, ih]

theorem drawList_getD_mem {rs : RandomSource σ} (hwf : rs.WF) :
    ∀ (n : Nat) (s : σ) (j : Nat), j < n →
      0 ≤ (drawList rs n s).1.getD j 0 ∧ (drawList rs n s).1.getD j 0 < 1 := by
  intro n
  induction n with
  | zero => intro s j hj; exact absurd hj (by omega)
  | succ n ih =>
    intro s j hj
    cases j with
    | zero =>
      simpa [drawList] using ⟨hwf.uniform01_nonneg s, hwf.uniform01_lt_one s⟩
    | succ j =>
      simpa [drawList] using ih (rs.uniform01 s).2 j (by omega)

theorem crossoverCombine_getD (CR : ℚ) (jrand : Nat) :
    ∀ (j0 : Nat) (ts ms rls : List ℚ) (j : Nat),
      j < ts.length → j < ms.length → j < rls.length →
      (crossoverCombine CR jrand j0 ts ms rls).getD j 0 =
        if rls.getD j 0 < CR ∨ j0 + j = jrand then ms.getD j 0
        else ts.getD j 0 := by
  intro j0 ts
  induction ts generalizing j0 with
  | nil => intro ms rls j hj; exact absurd hj (by simp)
  | cons t ts ih =>
    intro ms rls j hjt hjm hjr
    cases ms with
    | nil => exact absurd hjm (by simp)
    | cons m ms =>
      cases rls with
      | nil => exact absurd hjr (by simp)
      | cons r rls =>
        cases j with
        | zero => simp [crossoverCombine]
        | succ j =>
          have hrw : j0 + (j + 1) = (j0 + 1) + j := by omega
          simp only [crossoverCombine, List.getD_cons_succ, hrw]
          exact ih (j0 + 1) ms rls j (by simpa using hjt) (by simpa using hjm)
            (by simpa using hjr)

theorem crossoverCombine_inBounds {bounds : List (ℚ × ℚ)} {CR : ℚ} {jrand : Nat} :
    ∀ (j0 : Nat) {ts ms rls : List ℚ}, InBounds bounds ts → InBounds bounds ms →
      bounds.length ≤ rls.length →
      InBounds bounds (crossoverCombine CR jrand j0 ts ms rls) := by
  intro j0 ts ms rls hts
  induction hts generalizing j0 ms rls with
  | nil =>
    intro hms hlen
    cases hms
    simp only [crossoverCombine]
    exact List.Forall₂.nil
  | @cons b t bs ts hbt hbs ih =>
    intro hms hlen
    obtain ⟨m, ms', hbm, hms', rfl⟩ := List.forall₂_cons_left_iff.1 hms
    cases rls with
    | nil => exact absurd hlen (by simp)
    | cons r rls =>
      refine List.Forall₂.cons ?_ (ih _ hms' (by simpa using hlen))
      by_cases hc : r < CR ∨ j0 = jrand <;> simp [crossoverCombine, hc, hbm, hbt]

/-- C5: in every crossover call, coordinate `j` of the trial vector is taken
from the mutant exactly when the `j`-th per-coordinate uniform draw (which
lies in `[0,1)`) is `< CR` or `j` equals the once-per-call index `j_rand`
(itself in range), and otherwise from the target; consequently, whenever
mutant and target differ at `j_rand`, the trial differs from the target. -/
theorem crossover_characterization {rs : RandomSource σ} (hwf : rs.WF)
    {CR : ℚ} {target mutant : List ℚ} {s : σ}
    (hlen : mutant.length = target.length) (hpos : 0 < target.length) :
    (rs.randIndex target.length s).1 < target.length ∧
    (∀ j, j < target.length →
      (0 ≤ (drawList rs target.length (rs.randIndex target.length s).2).1.getD j 0 ∧
        (drawList rs target.length (rs.randIndex target.length s).2).1.getD j 0 < 1) ∧
      (crossover rs CR target mutant s).1.getD j 0 =
        (if (drawList rs target.length (rs.randIndex target.length s).2).1.getD j 0 < CR
            ∨ j = (rs.randIndex target.length s).1
          then mutant.getD j 0 else target.getD j 0)) ∧
    (mutant.getD (rs.randIndex target.length s).1 0 ≠
        target.getD (rs.randIndex target.length s).1 0 →
      (crossover rs CR target mutant s).1 ≠ target) := by
  have hjr : (rs.randIndex target.length s).1 < target.length :=
    hwf.randIndex_lt _ _ hpos
  have hchar : ∀ j, j < target.length →
      (crossover rs CR target mutant s).1.getD j 0 =
        (if (drawList rs target.length (rs.randIndex target.length s).2).1.getD j 0 < CR
            ∨ j = (rs.randIndex target.length s).1
          then mutant.getD j 0 else target.getD j 0) := by
    intro j hj
    have := crossoverCombine_getD CR (rs.randIndex target.length s).1 0 target mutant
      (drawList rs target.length (rs.randIndex target.length s).2).1 j hj
      (by omega) (by rw [drawList_length]; exact hj)
    simpa [crossover] using this
  refine ⟨hjr, fun j hj => ⟨drawList_getD_mem hwf _ _ j hj, hchar j hj⟩, ?_⟩
  intro hne heq
  apply hne
  have h1 := hchar (rs.randIndex target.length s).1 hjr
  rw [heq] at h1
  simp only [eq_self_iff_true, or_true, if_true] at h1
  exact h1.symm

theorem crossover_characterization_witness :
    (trivSource.randIndex 1 ()).1 < 1 ∧
    (∀ j, j < 1 →
      (0 ≤ (drawList trivSource 1 (trivSource.randIndex 1 ()).2).1.getD j 0 ∧
        (drawList trivSource 1 (trivSource.randIndex 1 ()).2).1.getD j 0 < 1) ∧
      (crossover trivSource (9/10) [-5] [0] ()).1.getD j 0 =
        (if (drawList trivSource 1 (trivSource.randIndex 1 ()).2).1.getD j 0 < 9/10
            ∨ j = (trivSource.randIndex 1 ()).1
          then ([0] : List ℚ).getD j 0 else ([-5] : List ℚ).getD j 0)) ∧
    (([0] : List ℚ).getD (trivSource.randIndex 1 ()).1 0 ≠
        ([-5] : List ℚ).getD (trivSource.randIndex 1 ()).1 0 →
      (crossover trivSource (9/10) [-5] [0] ()).1 ≠ [-5]) :=
  @crossover_characterization Unit trivSource trivSource_wf (9/10) [-5] [0] ()
    (by norm_num) (by norm_num)

theorem sampleVec_inBounds {rs : RandomSource σ} (hwf : rs.WF) :
    ∀ {bounds : List (ℚ × ℚ)}, ValidBounds bounds → ∀ (s : σ),
      InBounds bounds (sampleVec rs bounds s).1 := by
  intro bounds
  induction bounds with
  | nil => intro _ s; exact List.Forall₂.nil
  | cons b bs ih =>
    intro hv s
    have hble : b.1 ≤ b.2 := hv b (List.mem_cons_self b bs)
    have hr0 := hwf.uniform01_nonneg s
    have hr1 := hwf.uniform01_lt_one s
    refine List.Forall₂.cons ⟨?_, ?_⟩
      (ih (fun c hc => hv c (List.mem_cons_of_mem b hc)) _)
    · nlinarith
    · nlinarith

theorem initPopulation_length {rs : RandomSource σ} {bounds : List (ℚ × ℚ)} :
    ∀ (n : Nat) (s : σ), ((initPopulation rs bounds n s).1).length = n := by
  intro n
  induction n with
  | zero => intro s; rfl
  | succ n ih => intro s; simp [initPopulation, ih]

theorem initPopulation_inBounds {rs : RandomSource σ} (hwf : rs.WF)
    {bounds : List (ℚ × ℚ)} (hb : ValidBounds bounds) :
    ∀ (n : Nat) (s : σ), PopInBounds bounds (initPopulation rs bounds n s).1 := by
  intro n
  induction n with
  | zero => intro s x hx; exact absurd hx (List.not_mem_nil x)
  | succ n ih =>
    intro s x hx
    simp only [initPopulation, List.mem_cons] at hx
    rcases hx with rfl | hmem
    · exact sampleVec_inBounds hwf hb s
    · exact ih _ x hmem

theorem crossover_inBounds {rs : RandomSource σ} {CR : ℚ}
    {bounds : List (ℚ × ℚ)} {target mutant : List ℚ} {s : σ}
    (ht : InBounds bounds target) (hm : InBounds bounds mutant) :
    InBounds bounds (crossover rs CR target mutant s).1 := by
  have hrw : (crossover rs CR target mutant s).1 =
      crossoverCombine CR (rs.randIndex target.length s).1 0 target mutant
        (drawList rs target.length (rs.randIndex target.length s).2).1 := rfl
  rw [hrw]
  exact crossoverCombine_inBounds _ ht hm
    (by simp [drawList_length, inBounds_length ht])

theorem fitsOk_headD {func : List ℚ → Except ε ℚ} {pop : List (List ℚ)}
    {fits : List ℚ} (hfok : FitsOk func pop fits) (hne : pop ≠ []) :
    func (pop.headD []) = Except.ok (fits.headD 0) := by
  have h : List.Forall₂ (fun x v => func x = Except.ok v) pop fits := hfok
  cases h with
  | nil => exact absurd rfl hne
  | cons hxv _ => exact hxv

/-- Two successive populations are slot-wise non-worsening: both have cached
objective values and the later one is coordinate-wise `≤` the earlier one. -/
def SlotNonWorsening (func : List ℚ → Except ε ℚ)
    (p q : List (List ℚ)) : Prop :=
  ∃ fp fq, FitsOk func p fp ∧ FitsOk func q fq ∧
    List.Forall₂ (fun a b => b ≤ a) fp fq

theorem evolveSlots_spec {rs : RandomSource σ} (hwf : rs.WF)
    {func : List ℚ → Except ε ℚ} {bounds : List (ℚ × ℚ)} {F CR : ℚ}
    {pop : List (List ℚ)} (hb : ValidBounds bounds)
    (hpool : PopInBounds bounds pop) (h4 : 4 ≤ pop.length) :
    ∀ (ts : List (List ℚ)) (i : Nat) (fs : List ℚ) (s : σ)
      (ws : List (List ℚ)) (wfs : List ℚ) (s₂ : σ),
      PopInBounds bounds ts → FitsOk func ts fs → i + ts.length ≤ pop.length →
      evolveSlots rs func bounds F CR pop i ts fs s = Except.ok (ws, wfs, s₂) →
      FitsOk func ws wfs ∧ PopInBounds bounds ws ∧
        List.Forall₂ (fun a b => b ≤ a) fs wfs := by
  intro ts
  induction ts with
  | nil =>
    intro i fs s ws wfs s₂ hts hfok hle h
    have hfs : List.Forall₂ (fun x v => func x = Except.ok v) [] fs := hfok
    cases hfs
    simp only [evolveSlots, Except.ok.injEq, Prod.mk.injEq] at h
    obtain ⟨h1, h2, h3⟩ := h
    subst h1; subst h2
    exact ⟨List.Forall₂.nil, fun x hx => absurd hx (List.not_mem_nil x),
      List.Forall₂.nil⟩
  | cons t ts ih =>
    intro i fs s ws wfs s₂ hts hfok hle h
    obtain ⟨f, fs', hft, hfs', rfl⟩ := List.forall₂_cons_left_iff.1 hfok
    have hi : i < pop.length := by
      simp only [List.length_cons] at hle; omega
    have htIn : InBounds bounds t := hts t (List.mem_cons_self t ts)
    have htsIn : PopInBounds bounds ts :=
      fun x hx => hts x (List.mem_cons_of_mem t hx)
    have hmut : InBounds bounds (mutate rs bounds F pop i s).1 :=
      mutate_inBounds hwf hb hpool h4 hi
    have htrial : InBounds bounds
        (crossover rs CR t (mutate rs bounds F pop i s).1
          (mutate rs bounds F pop i s).2).1 :=
      crossover_inBounds htIn hmut
    simp only [evolveSlots] at h
    split at h
    · exact absurd h (by simp)
    · rename_i trialFit hx
      split at h
      · exact absurd h (by simp)
      · rename_i rest hrest
        simp only [Except.ok.injEq, Prod.mk.injEq] at h
        obtain ⟨h1, h2, h3⟩ := h
        subst h1; subst h2; subst h3
        have hle' : (i + 1) + ts.length ≤ pop.length := by
          simp only [List.length_cons] at hle; omega
        obtain ⟨IH1, IH2, IH3⟩ :=
          ih (i + 1) fs' _ rest.1 rest.2.1 rest.2.2 htsIn hfs' hle' hrest
        refine ⟨List.Forall₂.cons ?_ IH1, ?_, List.Forall₂.cons ?_ IH3⟩
        · by_cases hlt : trialFit < f
          · rw [select_of_lt hlt]; exact hx
          · rw [select_of_ge (not_lt.1 hlt)]; exact hft
        · intro x hx'
          rcases List.mem_cons.1 hx' with rfl | hmem
          · by_cases hlt : trialFit < f
            · rw [select_of_lt hlt]; exact htrial
            · rw [select_of_ge (not_lt.1 hlt)]; exact htIn
          · exact IH2 x hmem
        · by_cases hlt : trialFit < f
          · rw [select_of_lt hlt]; exact le_of_lt hlt
          · rw [select_of_ge (not_lt.1 hlt)]

theorem generationStep_spec {rs : RandomSource σ} (hwf : rs.WF)
    {func : List ℚ → Except ε ℚ} {bounds : List (ℚ × ℚ)} {F CR : ℚ}
    {pop : List (List ℚ)} {fits : List ℚ} {s : σ} {newPop : List (List ℚ)}
    {newFits : List ℚ} {s₂ : σ} (hb : ValidBounds bounds)
    (hpop : PopInBounds bounds pop) (h4 : 4 ≤ pop.length)
    (hfok : FitsOk func pop fits)
    (h : generationStep rs func bounds F CR pop fits s =
      Except.ok (newPop, newFits, s₂)) :
    FitsOk func newPop newFits ∧ PopInBounds bounds newPop ∧
      List.Forall₂ (fun a b => b ≤ a) fits newFits ∧
      newPop.length = pop.length := by
  obtain ⟨h1, h2, h3⟩ :=
    evolveSlots_spec hwf hb hpop h4 pop 0 fits s newPop newFits s₂ hpop hfok
      (by omega) h
  refine ⟨h1, h2, h3, ?_⟩
  rw [List.Forall₂.length_eq h1, ← List.Forall₂.length_eq h3,
    ← List.Forall₂.length_eq hfok]

theorem bestOf_ok {func : List ℚ → Except ε ℚ} :
    ∀ {pop : List (List ℚ)} {fits : List ℚ} {best : List ℚ × ℚ},
      FitsOk func pop fits → func best.1 = Except.ok best.2 →
      func (bestOf pop fits best).1 = Except.ok (bestOf pop fits best).2 := by
  intro pop
  induction pop with
  | nil =>
    intro fits best hfok hbest
    simpa [bestOf] using hbest
  | cons x xs ih =>
    intro fits best hfok hbest
    obtain ⟨v, vs, hxv, hfok', rfl⟩ := List.forall₂_cons_left_iff.1 hfok
    simp only [bestOf]
    apply ih hfok'
    by_cases hlt : v < best.2
    · simpa [hlt] using hxv
    · simpa [hlt] using hbest

theorem runLoop_spec {rs : RandomSource σ} (hwf : rs.WF)
    {func : List ℚ → Except ε ℚ} {bounds : List (ℚ × ℚ)} {F CR : ℚ}
    (hb : ValidBounds bounds) :
    ∀ (g : Nat) (pop : List (List ℚ)) (fits : List ℚ) (best : List ℚ × ℚ)
      (s : σ) (hist : List (List (List ℚ))) (best2 : List ℚ × ℚ),
      PopInBounds bounds pop → 4 ≤ pop.length → FitsOk func pop fits →
      func best.1 = Except.ok best.2 →
      runLoop rs func bounds F CR g pop fits best s = Except.ok (hist, best2) →
      hist.length = g ∧ (∀ p ∈ hist, PopInBounds bounds p) ∧
        List.Chain' (SlotNonWorsening func) (pop :: hist) ∧
        func best2.1 = Except.ok best2.2 := by
  intro g
  induction g with
  | zero =>
    intro pop fits best s hist best2 hpop h4 hfok hbest h
    simp only [runLoop, Except.ok.injEq, Prod.mk.injEq] at h
    obtain ⟨h1, h2⟩ := h
    subst h1; subst h2
    exact ⟨rfl, fun p hp => absurd hp (List.not_mem_nil p),
      List.chain'_singleton pop, hbest⟩
  | succ g ihg =>
    intro pop fits best s hist best2 hpop h4 hfok hbest h
    simp only [runLoop] at h
    split at h
    · exact absurd h (by simp)
    · rename_i step hstep
      split at h
      · exact absurd h (by simp)
      · rename_i rest hrest
        simp only [Except.ok.injEq, Prod.mk.injEq] at h
        obtain ⟨h1, h2⟩ := h
        subst h1; subst h2
        obtain ⟨hfok2, hpop2, hge, hlen⟩ :=
          generationStep_spec hwf hb hpop h4 hfok hstep
        have h42 : 4 ≤ step.1.length := by omega
        have hbest2 : func (bestOf step.1 step.2.1 best).1 =
            Except.ok (bestOf step.1 step.2.1 best).2 :=
          bestOf_ok hfok2 hbest
        obtain ⟨hL, hH, hC, hB⟩ :=
          ihg step.1 step.2.1 (bestOf step.1 step.2.1 best) step.2.2
            rest.1 rest.2 hpop2 h42 hfok2 hbest2 hrest
        refine ⟨by simp [hL], ?_, ?_, hB⟩
        · intro p hp
          rcases List.mem_cons.1 hp with rfl | hmem
          · exact hpop2
          · exact hH p hmem
        · exact List.chain'_cons.2 ⟨⟨fits, step.2.1, hfok, hfok2, hge⟩, hC⟩

theorem validConfig_iff {bounds : List (ℚ × ℚ)} {pop_size : Nat} :
    validConfig bounds pop_size = true ↔
      bounds ≠ [] ∧ 4 ≤ pop_size ∧ ValidBounds bounds := by
  simp [validConfig, ValidBounds, List.isEmpty_iff, List.all_eq_true, and_assoc]

theorem run_ok_spec {rs : RandomSource σ} (hwf : rs.WF)
    {func : List ℚ → Except ε ℚ} {bounds : List (ℚ × ℚ)} {pop_size : Nat}
    {F CR : ℚ} {max_gen : Nat} {s : σ} {r : DEResult}
    (h : run rs func bounds pop_size F CR max_gen s = Except.ok r) :
    ValidBounds bounds ∧ r.history.length = max_gen ∧
      (∀ p ∈ r.history, PopInBounds bounds p) ∧
      List.Chain' (SlotNonWorsening func)
        ((initPopulation rs bounds pop_size s).1 :: r.history) ∧
      func r.best_vector = Except.ok r.best_value := by
  simp only [run] at h
  split at h
  case isFalse => exact absurd h (by simp)
  case isTrue hvc =>
    obtain ⟨hne, h4, hvb⟩ := validConfig_iff.1 hvc
    split at h
    · exact absurd h (by simp)
    · rename_i fits0 heval
      split at h
      · exact absurd h (by simp)
      · rename_i fin hloop
        simp only [Except.ok.injEq] at h
        subst h
        have hplen : ((initPopulation rs bounds pop_size s).1).length = pop_size :=
          initPopulation_length pop_size s
        have hpop0 : PopInBounds bounds (initPopulation rs bounds pop_size s).1 :=
          initPopulation_inBounds hwf hvb pop_size s
        have hfok0 : FitsOk func (initPopulation rs bounds pop_size s).1 fits0 :=
          evalPop_fitsOk heval
        have hne0 : (initPopulation rs bounds pop_size s).1 ≠ [] := by
          intro hemp
          rw [hemp] at hplen
          simp at hplen
          omega
        have hbest0 : func (((initPopulation rs bounds pop_size s).1.headD [],
              fits0.headD 0) : List ℚ × ℚ).1 =
            Except.ok (((initPopulation rs bounds pop_size s).1.headD [],
              fits0.headD 0) : List ℚ × ℚ).2 := fitsOk_headD hfok0 hne0
        obtain ⟨hL, hH, hC, hB⟩ :=
          runLoop_spec hwf hvb max_gen (initPopulation rs bounds pop_size s).1
            fits0 _ _ fin.1 fin.2 hpop0 (by rw [hplen]; exact h4) hfok0
            (bestOf_ok hfok0 hbest0) hloop
        exact ⟨hvb, hL, hH, hC, hB⟩

theorem validBounds_demo : ValidBounds [(-5, 5)] := by
  intro b hb
  simp only [List.mem_cons, List.not_mem_nil, or_false] at hb
  subst hb; norm_num

/-- C3: bounds invariant — every individual of the generation-0 population,
every mutant after boundary handling, and every individual of every
generation snapshot of a completed run lie coordinate-wise within the closed
per-dimension intervals of the bounds argument. -/
theorem bounds_invariant {rs : RandomSource σ} (hwf : rs.WF)
    {bounds : List (ℚ × ℚ)} (hb : ValidBounds bounds) :
    (∀ (n : Nat) (s : σ), PopInBounds bounds (initPopulation rs bounds n s).1) ∧
    (∀ (F : ℚ) (pop : List (List ℚ)) (i : Nat) (s : σ),
      PopInBounds bounds pop → 4 ≤ pop.length → i < pop.length →
      InBounds bounds (mutate rs bounds F pop i s).1) ∧
    (∀ (func : List ℚ → Except ε ℚ) (pop_size : Nat) (F CR : ℚ)
      (max_gen : Nat) (s : σ) (r : DEResult),
      run rs func bounds pop_size F CR max_gen s = Except.ok r →
      ∀ p ∈ r.history, PopInBounds bounds p) :=
  ⟨fun n s => initPopulation_inBounds hwf hb n s,
   fun F pop i s hpop h4 hi => mutate_inBounds hwf hb hpop h4 hi,
   fun func ps F CR mg s r h => (run_ok_spec hwf h).2.2.1⟩

theorem bounds_invariant_witness :
    (∀ (n : Nat) (s : Unit),
      PopInBounds [(-5, 5)] (initPopulation trivSource [(-5, 5)] n s).1) ∧
    (∀ (F : ℚ) (pop : List (List ℚ)) (i : Nat) (s : Unit),
      PopInBounds [(-5, 5)] pop → 4 ≤ pop.length → i < pop.length →
      InBounds [(-5, 5)] (mutate trivSource [(-5, 5)] F pop i s).1) ∧
    (∀ (func : List ℚ → Except Unit ℚ) (pop_size : Nat) (F CR : ℚ)
      (max_gen : Nat) (s : Unit) (r : DEResult),
      run trivSource func [(-5, 5)] pop_size F CR max_gen s = Except.ok r →
      ∀ p ∈ r.history, PopInBounds [(-5, 5)] p) :=
  bounds_invariant trivSource_wf validBounds_demo

/-- C6: greedy non-worsening — in every completed run, for every consecutive
pair of generations (the generation-0 population followed by the history
snapshots), every population slot's cached objective value at generation g+1
is less than or equal to its value at generation g. -/
theorem slot_non_worsening {rs : RandomSource σ} (hwf : rs.WF)
    {func : List ℚ → Except ε ℚ} {bounds : List (ℚ × ℚ)} {pop_size : Nat}
    {F CR : ℚ} {max_gen : Nat} {s : σ} {r : DEResult}
    (h : run rs func bounds pop_size F CR max_gen s = Except.ok r) :
    List.Chain' (SlotNonWorsening func)
      ((initPopulation rs bounds pop_size s).1 :: r.history) ∧
    ∀ g, g + 1 < r.history.length →
      SlotNonWorsening func (r.history.getD g []) (r.history.getD (g + 1) []) := by
  have hC := (run_ok_spec hwf h).2.2.2.1
  refine ⟨hC, ?_⟩
  intro g hg
  have hC2 : List.Chain' (SlotNonWorsening func) r.history := hC.tail
  rw [List.chain'_iff_get] at hC2
  have hgg : g < r.history.length := by omega
  have := hC2 g (by omega)
  rw [List.getD_eq_getElem _ _ hgg, List.getD_eq_getElem _ _ hg]
  simpa using this

theorem slot_non_worsening_witness :
    List.Chain' (SlotNonWorsening sphereObj)
      ((initPopulation trivSource [(-5, 5)] 4 ()).1 ::
        (⟨[-5], 25, [[[-5], [-5], [-5], [-5]], [[-5], [-5], [-5], [-5]]]⟩ :
          DEResult).history) ∧
    ∀ g, g + 1 < (⟨[-5], 25, [[[-5], [-5], [-5], [-5]], [[-5], [-5], [-5], [-5]]]⟩ :
        DEResult).history.length →
      SlotNonWorsening sphereObj
        ((⟨[-5], 25, [[[-5], [-5], [-5], [-5]], [[-5], [-5], [-5], [-5]]]⟩ :
          DEResult).history.getD g [])
        ((⟨[-5], 25, [[[-5], [-5], [-5], [-5]], [[-5], [-5], [-5], [-5]]]⟩ :
          DEResult).history.getD (g + 1) []) := by
  have h : run trivSource sphereObj [(-5, 5)] 4 (4/5) (9/10) 2 () =
      Except.ok ⟨[-5], 25, [[[-5], [-5], [-5], [-5]], [[-5], [-5], [-5], [-5]]]⟩ := by
    norm_num [run, validConfig, initPopulation, sampleVec, evalPop, bestOf,
      runLoop, generationStep, evolveSlots, mutate, crossover, clip, mutantVec,
      drawList, crossoverCombine, select, sphereObj, sphere, trivSource]
  exact slot_non_worsening trivSource_wf h

/-- C7: a malformed configuration — empty bounds list, a bound pair with
lower > upper (non-finiteness is not representable over ℚ), or pop_size < 4 —
is rejected as a configuration error, and the result does not depend on the
objective function: no objective evaluation happens and the generation loop
never starts, so the run never fails at mutation time. -/
theorem precondition_rejected {rs : RandomSource σ} {bounds : List (ℚ × ℚ)}
    {pop_size : Nat}
    (hbad : bounds = [] ∨ pop_size < 4 ∨ ∃ b ∈ bounds, ¬ b.1 ≤ b.2) :
    ∀ (func func2 : List ℚ → Except ε ℚ) (F CR : ℚ) (max_gen : Nat) (s : σ),
      run rs func bounds pop_size F CR max_gen s =
        Except.error DEError.configError ∧
      run rs func bounds pop_size F CR max_gen s =
        run rs func2 bounds pop_size F CR max_gen s := by
  have hvc : validConfig bounds pop_size = false := by
    rw [Bool.eq_false_iff]
    intro hvc
    obtain ⟨h1, h2, h3⟩ := validConfig_iff.1 hvc
    rcases hbad with hx | hx | ⟨b, hmem, hle⟩
    · exact h1 hx
    · omega
    · exact hle (h3 b hmem)
  intro func func2 F CR mg s
  constructor
  · simp [run, hvc]
  · simp [run, hvc]

theorem precondition_rejected_witness :
    run trivSource sphereObj [] 50 (4/5) (9/10) 3 () =
      Except.error DEError.configError ∧
    run trivSource sphereObj [] 50 (4/5) (9/10) 3 () =
      run trivSource (fun _ => Except.ok 0) [] 50 (4/5) (9/10) 3 () :=
  precondition_rejected (Or.inl rfl) sphereObj (fun _ => Except.ok 0)
    (4/5) (9/10) 3 ()

theorem run_always_raises {rs : RandomSource σ} {bounds : List (ℚ × ℚ)}
    {pop_size : Nat} (hvc : validConfig bounds pop_size = true)
    (e : ε) (F CR : ℚ) (max_gen : Nat) (s : σ) :
    run rs (fun _ => Except.error e) bounds pop_size F CR max_gen s =
      Except.error (DEError.objective e) := by
  obtain ⟨hne, h4, hvb⟩ := validConfig_iff.1 hvc
  have hplen : ((initPopulation rs bounds pop_size s).1).length = pop_size :=
    initPopulation_length pop_size s
  obtain ⟨x, xs, hp⟩ :
      ∃ x xs, (initPopulation rs bounds pop_size s).1 = x :: xs := by
    cases hpp : (initPopulation rs bounds pop_size s).1 with
    | nil => rw [hpp] at hplen; simp at hplen; omega
    | cons x xs => exact ⟨x, xs, rfl⟩
  simp [run, hvc, hp, evalPop]

theorem evalPop_error_exists {func : List ℚ → Except ε ℚ} :
    ∀ {pop : List (List ℚ)} {e : ε}, evalPop func pop = Except.error e →
      ∃ x, func x = Except.error e := by
  intro pop
  induction pop with
  | nil => intro e h; exact absurd h (by simp [evalPop])
  | cons x xs ih =>
    intro e h
    simp only [evalPop] at h
    split at h
    · rename_i e2 hx
      obtain rfl : e2 = e := by simpa using h
      exact ⟨x, hx⟩
    · rename_i v hx
      split at h
      · rename_i e2 hxs
        obtain rfl : e2 = e := by simpa using h
        exact ih hxs
      · exact absurd h (by simp)

theorem evolveSlots_error_exists {rs : RandomSource σ}
    {func : List ℚ → Except ε ℚ} {bounds : List (ℚ × ℚ)} {F CR : ℚ}
    {pop : List (List ℚ)} :
    ∀ {ts : List (List ℚ)} {i : Nat} {fs : List ℚ} {s : σ} {e : ε},
      evolveSlots rs func bounds F CR pop i ts fs s = Except.error e →
      ∃ x, func x = Except.error e := by
  intro ts
  induction ts with
  | nil => intro i fs s e h; exact absurd h (by simp [evolveSlots])
  | cons t ts ih =>
    intro i fs s e h
    cases fs with
    | nil => exact absurd h (by simp [evolveSlots])
    | cons f fs =>
      simp only [evolveSlots] at h
      split at h
      · rename_i e2 hx
        obtain rfl : e2 = e := by simpa using h
        exact ⟨_, hx⟩
      · rename_i trialFit hx
        split at h
        · rename_i e2 hrest
          obtain rfl : e2 = e := by simpa using h
          exact ih hrest
        · exact absurd h (by simp)

theorem runLoop_error_exists {rs : RandomSource σ}
    {func : List ℚ → Except ε ℚ} {bounds : List (ℚ × ℚ)} {F CR : ℚ} :
    ∀ (g : Nat) {pop : List (List ℚ)} {fits : List ℚ} {best : List ℚ × ℚ}
      {s : σ} {e : ε},
      runLoop rs func bounds F CR g pop fits best s = Except.error e →
      ∃ x, func x = Except.error e := by
  intro g
  induction g with
  | zero => intro pop fits best s e h; exact absurd h (by simp [runLoop])
  | succ g ih =>
    intro pop fits best s e h
    simp only [runLoop] at h
    split at h
    · rename_i e2 hstep
      have hstep2 : evolveSlots rs func bounds F CR pop 0 pop fits s =
          Except.error e2 := hstep
      obtain rfl : e2 = e := by simpa using h
      exact evolveSlots_error_exists hstep2
    · rename_i step hstep
      split at h
      · rename_i e2 hrest
        obtain rfl : e2 = e := by simpa using h
        exact ih hrest
      · exact absurd h (by simp)

theorem run_error_exists {rs : RandomSource σ} {func : List ℚ → Except ε ℚ}
    {bounds : List (ℚ × ℚ)} {pop_size : Nat} {F CR : ℚ} {max_gen : Nat}
    {s : σ} {e : ε}
    (h : run rs func bounds pop_size F CR max_gen s =
      Except.error (DEError.objective e)) :
    ∃ x, func x = Except.error e := by
  simp only [run] at h
  split at h
  · split at h
    · rename_i e2 heval
      obtain rfl : e2 = e := by simpa using h
      exact evalPop_error_exists heval
    · rename_i fits0 heval
      split at h
      · rename_i e2 hloop
        obtain rfl : e2 = e := by simpa using h
        exact runLoop_error_exists _ hloop
      · exact absurd h (by simp)
  · exact absurd h (by simp)

theorem chain'_elem {α : Type} {R : α → α → Prop} :
    ∀ {a : α} {l : List α}, List.Chain' R (a :: l) → ∀ x ∈ l, ∃ y, R y x := by
  intro a l
  induction l generalizing a with
  | nil => intro _ x hx; exact absurd hx (List.not_mem_nil x)
  | cons b l ih =>
    intro h x hx
    obtain ⟨hab, h2⟩ := List.chain'_cons.1 h
    rcases List.mem_cons.1 hx with rfl | hmem
    · exact ⟨a, hab⟩
    · exact ih h2 x hmem

/-- C8: an objective-function exception raised at any input reached during a
run propagates immediately and aborts the run: a raise at a generation-0
individual aborts the initial evaluation with that exception, a raise at a
mid-run trial vector aborts the generation pass with that exception, the
exception a run aborts with is always one the objective actually raised
(propagated unaltered, never a default result), a completed run evaluated
every individual of every snapshot successfully (no silent catch), and in
particular an always-raising objective makes the run propagate its exception
rather than return any `DEResult`. -/
theorem objective_exception_propagates {rs : RandomSource σ} (hwf : rs.WF)
    {func : List ℚ → Except ε ℚ} {bounds : List (ℚ × ℚ)} {pop_size : Nat}
    {F CR : ℚ} {max_gen : Nat} {s : σ}
    (hvc : validConfig bounds pop_size = true) :
    (∀ (x : List ℚ) (xs : List (List ℚ)) (e : ε),
      func x = Except.error e → evalPop func (x :: xs) = Except.error e) ∧
    (∀ (pop ts : List (List ℚ)) (i : Nat) (t : List ℚ) (f : ℚ) (fs : List ℚ)
        (s2 : σ) (e : ε),
      func (crossover rs CR t (mutate rs bounds F pop i s2).1
        (mutate rs bounds F pop i s2).2).1 = Except.error e →
      evolveSlots rs func bounds F CR pop i (t :: ts) (f :: fs) s2 =
        Except.error e) ∧
    (∀ e : ε, run rs func bounds pop_size F CR max_gen s =
        Except.error (DEError.objective e) →
      ∃ x, func x = Except.error e) ∧
    (∀ r : DEResult, run rs func bounds pop_size F CR max_gen s = Except.ok r →
      ∀ p ∈ r.history, ∃ fs, FitsOk func p fs) ∧
    (∀ e : ε,
      run rs (fun _ => Except.error e) bounds pop_size F CR max_gen s =
        Except.error (DEError.objective e) ∧
      ∀ r : DEResult,
        run rs (fun _ => Except.error e) bounds pop_size F CR max_gen s ≠
          Except.ok r) := by
  refine ⟨?_, ?_, ?_, ?_, ?_⟩
  · intro x xs e hx
    simp [evalPop, hx]
  · intro pop ts i t f fs s2 e hx
    simp [evolveSlots, hx]
  · intro e h
    exact run_error_exists h
  · intro r hr p hp
    obtain ⟨-, -, -, hC, -⟩ := run_ok_spec hwf hr
    obtain ⟨y, hy⟩ := chain'_elem hC p hp
    obtain ⟨fp, fq, -, hfq, -⟩ := hy
    exact ⟨fq, hfq⟩
  · intro e
    refine ⟨run_always_raises hvc e F CR max_gen s, ?_⟩
    intro r hr
    rw [run_always_raises hvc e F CR max_gen s] at hr
    exact absurd hr (by simp)

/-- A demo objective that raises on every input, for the concrete witness. -/
def raisingObj : List ℚ → Except Unit ℚ := fun _ => Except.error ()

theorem objective_exception_propagates_witness :
    (∀ (x : List ℚ) (xs : List (List ℚ)) (e : Unit),
      raisingObj x = Except.error e →
      evalPop raisingObj (x :: xs) = Except.error e) ∧
    (∀ (pop ts : List (List ℚ)) (i : Nat) (t : List ℚ) (f : ℚ) (fs : List ℚ)
        (s2 : Unit) (e : Unit),
      raisingObj (crossover trivSource (9/10) t
        (mutate trivSource [(-5, 5)] (4/5) pop i s2).1
        (mutate trivSource [(-5, 5)] (4/5) pop i s2).2).1 = Except.error e →
      evolveSlots trivSource raisingObj [(-5, 5)] (4/5) (9/10) pop i (t :: ts)
        (f :: fs) s2 = Except.error e) ∧
    (∀ e : Unit, run trivSource raisingObj [(-5, 5)] 4 (4/5) (9/10) 1 () =
        Except.error (DEError.objective e) →
      ∃ x, raisingObj x = Except.error e) ∧
    (∀ r : DEResult, run trivSource raisingObj [(-5, 5)] 4 (4/5) (9/10) 1 () =
        Except.ok r → ∀ p ∈ r.history, ∃ fs, FitsOk raisingObj p fs) ∧
    (∀ e : Unit,
      run trivSource (fun _ => Except.error e) [(-5, 5)] 4 (4/5) (9/10) 1 () =
        Except.error (DEError.objective e) ∧
      ∀ r : DEResult,
        run trivSource (fun _ => Except.error e) [(-5, 5)] 4 (4/5) (9/10) 1 () ≠
          Except.ok r) :=
  objective_exception_propagates trivSource_wf (by norm_num [validConfig])

/-- C9: determinism under a fixed seed — two runs with identical objective
function, bounds, hyperparameters and an identically seeded random source
produce identical results, in particular identical best vector, best value
and history. -/
theorem determinism_fixed_seed {rs : RandomSource σ}
    {func : List ℚ → Except ε ℚ} {bounds : List (ℚ × ℚ)} {pop_size : Nat}
    {F CR : ℚ} {max_gen : Nat} {s₁ s₂ : σ} (hseed : s₁ = s₂) :
    run rs func bounds pop_size F CR max_gen s₁ =
      run rs func bounds pop_size F CR max_gen s₂ ∧
    ∀ r₁ r₂ : DEResult,
      run rs func bounds pop_size F CR max_gen s₁ = Except.ok r₁ →
      run rs func bounds pop_size F CR max_gen s₂ = Except.ok r₂ →
      r₁.best_vector = r₂.best_vector ∧ r₁.best_value = r₂.best_value ∧
        r₁.history = r₂.history := by
  subst hseed
  refine ⟨rfl, ?_⟩
  intro r₁ r₂ h1 h2
  rw [h1] at h2
  have hr : r₁ = r₂ := by simpa using h2
  subst hr
  exact ⟨rfl, rfl, rfl⟩

theorem determinism_fixed_seed_witness :
    run trivSource sphereObj [(-5, 5)] 4 (4/5) (9/10) 1 () =
      run trivSource sphereObj [(-5, 5)] 4 (4/5) (9/10) 1 () ∧
    ∀ r₁ r₂ : DEResult,
      run trivSource sphereObj [(-5, 5)] 4 (4/5) (9/10) 1 () = Except.ok r₁ →
      run trivSource sphereObj [(-5, 5)] 4 (4/5) (9/10) 1 () = Except.ok r₂ →
      r₁.best_vector = r₂.best_vector ∧ r₁.best_value = r₂.best_value ∧
        r₁.history = r₂.history :=
  determinism_fixed_seed rfl

/-- C10: every completed run returns a `DEResult` whose history has exactly
one population snapshot per completed generation (`max_gen` of them), and
whose best value is the objective value of its best vector. -/
theorem result_contract {rs : RandomSource σ} (hwf : rs.WF)
    {func : List ℚ → Except ε ℚ} {bounds : List (ℚ × ℚ)} {pop_size : Nat}
    {F CR : ℚ} {max_gen : Nat} {s : σ} {r : DEResult}
    (h : run rs func bounds pop_size F CR max_gen s = Except.ok r) :
    r.history.length = max_gen ∧ func r.best_vector = Except.ok r.best_value :=
  ⟨(run_ok_spec hwf h).2.1, (run_ok_spec hwf h).2.2.2.2⟩

theorem result_contract_witness :
    (⟨[-5], 25, [[[-5], [-5], [-5], [-5]]]⟩ : DEResult).history.length = 1 ∧
    sphereObj (⟨[-5], 25, [[[-5], [-5], [-5], [-5]]]⟩ : DEResult).best_vector =
      Except.ok (⟨[-5], 25, [[[-5], [-5], [-5], [-5]]]⟩ : DEResult).best_value := by
  have h : run trivSource sphereObj [(-5, 5)] 4 (4/5) (9/10) 1 () =
      Except.ok ⟨[-5], 25, [[[-5], [-5], [-5], [-5]]]⟩ := by
    norm_num [run, validConfig, initPopulation, sampleVec, evalPop, bestOf,
      runLoop, generationStep, evolveSlots, mutate, crossover, clip, mutantVec,
      drawList, crossoverCombine, select, sphereObj, sphere, trivSource]
  exact result_contract trivSource_wf h

end DE
